import Mathlib

/-!
# Verification of the Firestore immutable sorted-map core

Shallow embedding of the persistent sorted-map components of the
firebase-ios-sdk Firestore core:

* `LlrbNode` — the left-leaning red-black tree node
  (`Firestore/core/src/firebase/firestore/immutable/llrb_node.h`),
* the directional tree iterator with `ForwardPolicy`
  (`llrb_node_iterator.h`, policy-based version),
* `TreeSortedMap` (`tree_sorted_map.h`),
* `ArraySortedMap` backed by a capacity-checked `FixedArray`
  (`array_sorted_map.h`), embedded both at the entry-list level and over an
  explicit allocation store so that copy-on-write (persistence) and the
  return-`self` no-allocation optimization are expressible.

Machine integers (`uint32_t` sizes) stay well below `2^31` in every statement
here, so sizes are embedded as `Nat`.  Assertion failures
(`assert(new_size <= fixed_size)` in `FixedArray::append`) are embedded as
`Option.none`.
-/

namespace Firestore

/-- Tree node of the LLRB tree, `llrb_node.h` lines 54-191.  A node stores its
key, value, color (`red_` bit) and its *stored* subtree size (`size_`), plus
the two children.  The canonical empty node (`LlrbNode::Empty()`, black,
size 0) is the `empty` constructor. -/
inductive LlrbNode (K V : Type) where
  | empty : LlrbNode K V
  | node (key : K) (value : V) (red : Bool) (size : Nat)
      (left right : LlrbNode K V) : LlrbNode K V
  deriving DecidableEq, Repr

namespace LlrbNode

variable {K V : Type}

/-- `size()` accessor: returns the stored `size_` field (0 for the empty
node), `llrb_node.h` lines 115-117. -/
def size : LlrbNode K V → Nat
  | .empty => 0
  | .node _ _ _ s _ _ => s

/-- `empty()` accessor: `size_ == 0`, `llrb_node.h` lines 120-124. -/
def isEmpty (n : LlrbNode K V) : Bool :=
  n.size == 0

/-- `red()` accessor (the empty node is black), `llrb_node.h` lines 127-129. -/
def red : LlrbNode K V → Bool
  | .empty => false
  | .node _ _ r _ _ _ => r

/-- `key()` accessor; the empty node holds the default-constructed `K()`,
`llrb_node.h` lines 71, 131-133. -/
def key [Inhabited K] : LlrbNode K V → K
  | .empty => default
  | .node k _ _ _ _ _ => k

/-- `value()` accessor; the empty node holds the default-constructed `V()`. -/
def value [Inhabited V] : LlrbNode K V → V
  | .empty => default
  | .node _ v _ _ _ _ => v

/-- `left()` accessor; the empty node's child links are null and are never
dereferenced by the embedded operations, they behave as empty. -/
def left : LlrbNode K V → LlrbNode K V
  | .empty => .empty
  | .node _ _ _ _ l _ => l

/-- `right()` accessor. -/
def right : LlrbNode K V → LlrbNode K V
  | .empty => .empty
  | .node _ _ _ _ _ r => r

/-- The public constructor `LlrbNode(key, value, color, left, right)`,
`llrb_node.h` lines 95-106: the stored size is computed as
`left->size_ + 1 + right_->size_`. -/
def mkNode (k : K) (v : V) (color : Bool) (l r : LlrbNode K V) :
    LlrbNode K V :=
  .node k v color (l.size + 1 + r.size) l r

/-- `RotateLeft`, `llrb_node.h` lines 259-268.  The receiver `X` keeps its
`size_` and `red_` bit; a new red left child is built from X's key/value with
children `X.left` and `R.left`; the receiver then takes over `R`'s *value*
(`value_ = right_->value_` — the key field is left untouched) and `R.right`
as its right child.  Only ever invoked when the right child is red (hence
non-empty); on an empty right child it is the identity. -/
def rotateLeft : LlrbNode K V → LlrbNode K V
  | .empty => .empty
  | .node k v c s l r =>
    match r with
    | .empty => .node k v c s l .empty
    | .node _kr vr _cr _sr rl rr =>
      .node k vr c s (mkNode k v true l rl) rr

/-- `RotateRight`, `llrb_node.h` lines 277-286 (mirror image): the receiver
keeps `size_` and `red_`, builds a new red right child from its own key/value
with children `L.right` and `X.right`, and takes over `L`'s *value* (again the
key field is left untouched) and `L.left` as its left child. -/
def rotateRight : LlrbNode K V → LlrbNode K V
  | .empty => .empty
  | .node k v c s l r =>
    match l with
    | .empty => .node k v c s .empty r
    | .node _kl vl _cl _sl ll lr =>
      .node k vl c s ll (mkNode k v true lr r)

/-- `FlipColor`, `llrb_node.h` lines 288-300: toggle this node's color and
both children's colors; keys, values and sizes are unchanged.  Only invoked
when both children are red (hence non-empty). -/
def flipColor : LlrbNode K V → LlrbNode K V
  | .empty => .empty
  | .node k v c s l r =>
    let l' := match l with
      | .empty => LlrbNode.empty
      | .node kl vl cl sl ll lr => LlrbNode.node kl vl (!cl) sl ll lr
    let r' := match r with
      | .empty => LlrbNode.empty
      | .node kr vr cr sr rl rr => LlrbNode.node kr vr (!cr) sr rl rr
    .node k v (!c) s l' r'

/-- `FixUp`, `llrb_node.h` lines 237-250: first recompute
`size_ = left_->size() + 1 + right_->size()`, then in order: rotate left if
the right child is red and the left is not; rotate right if the left child
and its left child are both red; flip colors if both children are red. -/
def fixUp : LlrbNode K V → LlrbNode K V
  | .empty => .empty
  | .node k v c _ l r =>
    let n1 : LlrbNode K V := .node k v c (l.size + 1 + r.size) l r
    let n2 := if n1.right.red && !n1.left.red then rotateLeft n1 else n1
    let n3 := if n2.left.red && n2.left.left.red then rotateRight n2 else n2
    if n3.left.red && n3.right.red then flipColor n3 else n3

/-- `InsertImpl`, `llrb_node.h` lines 205-235.  On the empty node it builds a
fresh red node of size 1.  Otherwise the descent direction is decided by
applying the comparator to the *values*: `descending = comparator(value,
value_)` (line 219) recurses left, `ascending = comparator(value_, value)`
(line 225) recurses right, each followed by `FixUp`; otherwise only the value
field of the copy is replaced (`result.value_ = value`, line 231). -/
def insertImpl (k : K) (v : V) (cmp : V → V → Bool) :
    LlrbNode K V → LlrbNode K V
  | .empty => mkNode k v true .empty .empty
  | .node k0 v0 c0 s0 l0 r0 =>
    if cmp v v0 then
      fixUp (.node k0 v0 c0 s0 (insertImpl k v cmp l0) r0)
    else if cmp v0 v then
      fixUp (.node k0 v0 c0 s0 l0 (insertImpl k v cmp r0))
    else
      .node k0 v c0 s0 l0 r0

/-- Force the `red_` bit to black, as done on the outermost insert result. -/
def setBlack : LlrbNode K V → LlrbNode K V
  | .empty => .empty
  | .node k v _ s l r => .node k v false s l r

/-- `insert`, `llrb_node.h` lines 193-203: run `InsertImpl` and force the
resulting root to black. -/
def insert (n : LlrbNode K V) (k : K) (v : V) (cmp : V → V → Bool) :
    LlrbNode K V :=
  let root := insertImpl k v cmp n
  if root.red then root.setBlack else root

end LlrbNode

/-- The integer comparator `std::less<int>` used by the tests
(`LlrbNode<int, int>`, `ArraySortedMap<int, int>`). -/
def intLt (a b : Int) : Bool :=
  decide (a < b)

/-! ## Directional tree iterator (policy-based version)

From the second revision of `llrb_node_iterator.h` in the repository.  The
`ForwardPolicy` there (lines 189-205) defines `forward(node) = node->left()`
and `backward(node) = node->right()`, with `direction() = Ascending`; the
iterator descends via `Policy::backward` in `Begin` and via `Policy::forward`
when advancing. -/

namespace FwdIter

open LlrbNode

variable {K V : Type}

/-- `ForwardPolicy::forward`, `llrb_node_iterator.h` lines 198-200: returns
the *left* child. -/
def fpForward (n : LlrbNode K V) : LlrbNode K V :=
  n.left

/-- `ForwardPolicy::backward`, `llrb_node_iterator.h` lines 202-204: returns
the *right* child. -/
def fpBackward (n : LlrbNode K V) : LlrbNode K V :=
  n.right

/-- Iterator state: the explicit stack of nodes plus the `end_` flag. -/
structure Iter (K V : Type) where
  stack : List (LlrbNode K V)
  atEnd : Bool
  deriving DecidableEq, Repr

/-- The descent loop shared by `Begin` and `operator++`:
`while (!node->empty()) { stack.push(node); node = Policy::backward(node); }`
(`llrb_node_iterator.h` lines 250-254 and 324-328).  `empty()` is the stored
`size_ == 0` test. -/
def beginDescend : LlrbNode K V → List (LlrbNode K V) → List (LlrbNode K V)
  | .empty, st => st
  | .node k v c s l r, st =>
    if s = 0 then st
    else beginDescend (fpBackward (.node k v c s l r))
      (LlrbNode.node k v c s l r :: st)

/-- `Begin(root)`, `llrb_node_iterator.h` lines 247-257: descend via
`Policy::backward` pushing each non-empty node; the end flag is set exactly
when the stack ends up empty. -/
def iterBegin (root : LlrbNode K V) : Iter K V :=
  let st := beginDescend root []
  ⟨st, st.isEmpty⟩

/-- `End(root)`, `llrb_node_iterator.h` lines 259-269: descend via
`Policy::forward`; the end flag is set unconditionally. -/
def endDescend : LlrbNode K V → List (LlrbNode K V) → List (LlrbNode K V)
  | .empty, st => st
  | .node k v c s l r, st =>
    if s = 0 then st
    else endDescend (fpForward (.node k v c s l r))
      (LlrbNode.node k v c s l r :: st)

def iterEnd (root : LlrbNode K V) : Iter K V :=
  ⟨endDescend root [], true⟩

/-- `top()`, `llrb_node_iterator.h` lines 294-300: the canonical empty node
when the end flag is set, otherwise the top of the stack. -/
def top (it : Iter K V) : LlrbNode K V :=
  if it.atEnd then .empty else it.stack.headD .empty

/-- `operator++`, `llrb_node_iterator.h` lines 311-335: no-op at end;
otherwise pop the top node, then from `Policy::forward` of the popped node
push every non-empty node while descending via `Policy::backward`; set the
end flag if the stack is left empty. -/
def advance (it : Iter K V) : Iter K V :=
  if it.atEnd then it
  else
    match it.stack with
    | [] => it
    | n :: rest =>
      let st := beginDescend (fpForward n) rest
      ⟨st, st.isEmpty⟩

/-- Collect the `(key, value)` entries visited by repeatedly advancing the
iterator, with explicit fuel bounding the number of steps. -/
def entries [Inhabited K] [Inhabited V] :
    Nat → Iter K V → List (K × V)
  | 0, _ => []
  | fuel + 1, it =>
    if it.atEnd then []
    else ((top it).key, (top it).value) :: entries fuel (advance it)

/-- `util::ComparisonResult` from `util/comparison.h` (not part of the
sources here). -/
inductive CompResult where
  | ascending
  | same
  | descending
  deriving DecidableEq, Repr

/-- Modelled from the spec: `util::Compare(lhs, rhs, comparator)` from
`util/comparison.h` is not among the sources; per the spec and the iterator's
use of it, it reports `Ascending` when `lhs` is ordered before `rhs` by the
comparator, `Descending` when ordered after, and `Same` otherwise. -/
def compareWith (cmp : Int → Int → Bool) (a b : Int) : CompResult :=
  if cmp a b then .ascending
  else if cmp b a then .descending
  else .same

/-- The descent loop of `LowerBound`, `llrb_node_iterator.h` lines 271-292:
`while (!node->empty())` push the node, then compute
`util::Compare(root->key(), key, comparator)` — note the comparison uses the
*root's* key on every iteration — break on `Same`, move to `Policy::forward`
on a result equal to `Policy::direction()` (= `Ascending` for the forward
policy), else to `Policy::backward`. -/
def lowerBoundStack (cmp : Int → Int → Bool) (rootKey target : Int) :
    LlrbNode Int Int → List (LlrbNode Int Int) → List (LlrbNode Int Int)
  | .empty, st => st
  | .node k v c s l r, st =>
    if s = 0 then st
    else
      let n : LlrbNode Int Int := .node k v c s l r
      let st' := n :: st
      match compareWith cmp rootKey target with
      | .same => st'
      | .ascending => lowerBoundStack cmp rootKey target (fpForward n) st'
      | .descending => lowerBoundStack cmp rootKey target (fpBackward n) st'

/-- `LowerBound(root, key, comparator)`, `llrb_node_iterator.h` lines
271-292: run the descent from the root; the end flag is `root->empty()`. -/
def lowerBound (cmp : Int → Int → Bool) (root : LlrbNode Int Int)
    (target : Int) : Iter Int Int :=
  ⟨lowerBoundStack cmp root.key target root [], root.isEmpty⟩

end FwdIter

/-! ## Tree-backed sorted map (`tree_sorted_map.h`) -/

/-- `TreeSortedMap<int, int>`: a root node plus the (fixed, `std::less<int>`)
comparator, `tree_sorted_map.h` lines 68-272. -/
structure TreeSortedMap where
  root : LlrbNode Int Int
  deriving DecidableEq, Repr

namespace TreeSortedMap

/-- `size()`, `tree_sorted_map.h` lines 153-155: `root_->size()`. -/
def size (m : TreeSortedMap) : Nat :=
  m.root.size

/-- `erase`, `tree_sorted_map.h` lines 127-130: the body is
`if (&key) {} return *this;` — it returns the receiver unchanged. -/
def erase (m : TreeSortedMap) (k : Int) : TreeSortedMap :=
  let _ := k
  m

end TreeSortedMap

/-! ## Array-backed sorted map (`array_sorted_map.h`)

`ArraySortedMap<int, int>` holds a `shared_ptr` to a `FixedArray` of entries.
The embedding has two layers: `Asm.*` operate on the entry list itself
(mirroring the element-level computation, with `FixedArray::append`'s
`assert(new_size <= fixed_size)` turned into an `Option`), and `Asm.*S`
operate over an explicit allocation `Store`, so that "returns `self` with no
allocation" and "the old map's storage is untouched" are expressible. -/

namespace Asm

/-- An entry, `std::pair<int, int>`. -/
abbrev Entry := Int × Int

/-- `ArraySortedMapBase::kFixedSize`, `array_sorted_map.h` line 64. -/
def kFixedSize : Nat := 25

/-- `FixedArray::append` (both overloads), `array_sorted_map.h` lines
108-127: appending fails the `assert(new_size <= fixed_size)` when the
resulting size exceeds the fixed capacity; otherwise the elements are copied
onto the end. -/
def fxAppend (cur xs : List Entry) : Option (List Entry) :=
  if cur.length + xs.length ≤ kFixedSize then some (cur ++ xs) else none

/-- `std::lower_bound(begin(), end(), key, key_comparator_)`
(`array_sorted_map.h` lines 348-350): the first position whose entry's key is
not less than `k`.  The `KeyComparator` adapter (`map_entry.h`, not among the
sources; modelled from the spec: it "orders entries by key only") applies the
key comparator `std::less<int>` to the entry's first component. -/
def lowerBoundIdx (l : List Entry) (k : Int) : Nat :=
  match l with
  | [] => 0
  | e :: rest => if e.1 < k then lowerBoundIdx rest k + 1 else 0

/-- The `replacing_entry` test of `insert`, `array_sorted_map.h` lines
210-214: the lower bound is a real position and `!key_comparator_(key, *pos)`
holds. -/
def replacing (l : List Entry) (k : Int) : Bool :=
  let pos := lowerBoundIdx l k
  decide (pos < l.length) && !(decide (k < (l.getD pos (0, 0)).1))

/-- The return-`self` test of `insert`, `array_sorted_map.h` line 214:
the entry is replaced and the new value equals the stored one. -/
def insertNoOp (l : List Entry) (k v : Int) : Bool :=
  replacing l k && decide (v = (l.getD (lowerBoundIdx l k) (0, 0)).2)

/-- `ArraySortedMap::insert`, `array_sorted_map.h` lines 205-233, at the
entry-list level.  When the identical pair is present the receiver's list is
returned as is; otherwise a new array is built from three checked appends:
the prefix strictly before the found position, the new entry, and the
remainder (skipping the replaced entry when replacing).  `none` is the
assertion failure inside `FixedArray::append`. -/
def insert (l : List Entry) (k v : Int) : Option (List Entry) :=
  let pos := lowerBoundIdx l k
  if insertNoOp l k v then some l
  else
    (fxAppend [] (l.take pos)).bind fun c1 =>
      (fxAppend c1 [(k, v)]).bind fun c2 =>
        fxAppend c2 (if replacing l k then l.drop (pos + 1) else l.drop pos)

/-- `ArraySortedMap::find`, `array_sorted_map.h` lines 264-272: the entry at
the lower bound if that position exists and `!key_comparator_(key,
*lower_bound)`, otherwise the not-found sentinel. -/
def find (l : List Entry) (k : Int) : Option Entry :=
  let pos := lowerBoundIdx l k
  if h : pos < l.length then
    let e := l.get ⟨pos, h⟩
    if ¬ (k < e.1) then some e else none
  else none

/-- `ArraySortedMap::erase`, `array_sorted_map.h` lines 241-255, at the
entry-list level: if the key is absent the receiver's list is returned as is;
if it is the only entry the result is the canonical empty array; otherwise a
new array is built from the entries before and after the match. -/
def erase (l : List Entry) (k : Int) : Option (List Entry) :=
  match find l k with
  | none => some l
  | some _ =>
    if l.length ≤ 1 then some []
    else
      let pos := lowerBoundIdx l k
      (fxAppend [] (l.take pos)).bind fun c1 =>
        fxAppend c1 (l.drop (pos + 1))

/-- The allocation store: `next` is the next fresh array id, `mem` gives the
contents of every allocated array.  Id 0 is the process-wide shared
`EmptyArray()` singleton (`array_sorted_map.h` lines 333-337). -/
structure Store where
  next : Nat
  mem : Nat → List Entry

/-- Allocate a fresh array holding `l` (what `std::make_shared<array_type>`
does inside `insert`/`erase`); every previously allocated array keeps its
contents. -/
def alloc (s : Store) (l : List Entry) : Store × Nat :=
  (⟨s.next + 1, fun i => if i = s.next then l else s.mem i⟩, s.next)

/-- `ArraySortedMap::insert` over the store: the receiver is the array id
`m`.  In the identical-pair case the method returns `*this` — same store (no
allocation), same array.  Otherwise the new entry list is wrapped in a fresh
allocation. -/
def insertS (s : Store) (m : Nat) (k v : Int) : Option (Store × Nat) :=
  if insertNoOp (s.mem m) k v then some (s, m)
  else (insert (s.mem m) k v).map fun l => alloc s l

/-- `ArraySortedMap::erase` over the store: absent key returns `*this`
unchanged; erasing the only entry returns a map wrapping the shared
`EmptyArray()` singleton (id 0, no allocation); otherwise the new entry list
is wrapped in a fresh allocation. -/
def eraseS (s : Store) (m : Nat) (k : Int) : Option (Store × Nat) :=
  match find (s.mem m) k with
  | none => some (s, m)
  | some _ =>
    if (s.mem m).length ≤ 1 then some (s, 0)
    else (erase (s.mem m) k).map fun l => alloc s l

/-- Strict ascending key order, the `ArraySortedMap` representation
invariant: `entries[i].key < entries[i+1].key` for all `i`. -/
def SortedE (l : List Entry) : Prop :=
  l.Pairwise (fun a b => a.1 < b.1)

instance (l : List Entry) : Decidable (SortedE l) :=
  inferInstanceAs (Decidable (List.Pairwise (fun a b : Entry => a.1 < b.1) l))

end Asm

/-! ## Iterator equality is pointer identity

`LlrbNodeIterator::operator==` (`llrb_node_iterator.h` lines 368-373)
compares `get() == b.get()`, raw node pointers.  `top()` (lines 294-300)
returns `Empty().get()` — the single per-type static sentinel
(`llrb_node.h` lines 69-73) — whenever the end flag is set.  To make pointer
identity expressible the nodes are embedded as cells in an addressed store;
address 0 is the shared empty sentinel. -/

namespace PtrIter

/-- One heap-allocated `LlrbNode` cell; `left`/`right` are addresses. -/
structure NodeCell where
  key : Int
  value : Int
  red : Bool
  size : Nat
  left : Nat
  right : Nat
  deriving DecidableEq, Repr

/-- The node heap: `mem 0` is the `LlrbNode::Empty()` singleton (size 0). -/
structure NodeStore where
  mem : Nat → NodeCell

/-- Iterator state: stack of node addresses plus the end flag. -/
structure PIter where
  stack : List Nat
  atEnd : Bool
  deriving DecidableEq, Repr

/-- `top()` / `get()`, `llrb_node_iterator.h` lines 294-303: the address of
the empty sentinel when the end flag is set, otherwise the top of stack. -/
def pGet (it : PIter) : Nat :=
  if it.atEnd then 0 else it.stack.headD 0

/-- `operator==`, `llrb_node_iterator.h` lines 368-370: pointer identity of
the currently dereferenced node, `get() == b.get()`. -/
def iterEq (a b : PIter) : Bool :=
  pGet a == pGet b

/-- The descent loop of `End(root)` (`llrb_node_iterator.h` lines 259-269):
push every node with nonzero stored size while moving to `Policy::forward`
(the left child under `ForwardPolicy`).  The address graph may be arbitrary,
so the loop carries explicit fuel. -/
def endDescend (s : NodeStore) : Nat → Nat → List Nat → List Nat
  | 0, _, st => st
  | fuel + 1, p, st =>
    if (s.mem p).size = 0 then st
    else endDescend s fuel ((s.mem p).left) (p :: st)

/-- `End(root)`, `llrb_node_iterator.h` lines 259-269: the end flag is set
unconditionally. -/
def pEnd (s : NodeStore) (root fuel : Nat) : PIter :=
  ⟨endDescend s fuel root [], true⟩

end PtrIter

/-! ## Stated properties and concrete instances -/

/-- The subtree-size invariant of the spec: every non-empty node's *stored*
`size_` field equals 1 plus the sizes of its children, recursively. -/
def SizeOk {K V : Type} : LlrbNode K V → Prop
  | .empty => True
  | .node _ _ _ s l r => s = l.size + 1 + r.size ∧ SizeOk l ∧ SizeOk r

/-- A hand-built tree used to exercise `LowerBound`: root key 5 whose left
child is the chain 9 → 7 → 6 (left links). -/
def lbTree : LlrbNode Int Int :=
  .node 5 5 false 4
    (.node 9 9 false 3
      (.node 7 7 false 2 (.node 6 6 true 1 .empty .empty) .empty) .empty)
    .empty

/-- The tree produced by inserting (1, 1) then (2, 2) into the empty node. -/
def tree12 : LlrbNode Int Int :=
  ((LlrbNode.empty : LlrbNode Int Int).insert 1 1 intLt).insert 2 2 intLt

/-- A full array of `kFixedSize` entries with keys (and values) 0..24. -/
def l25 : List Asm.Entry :=
  (List.range Asm.kFixedSize).map fun i => ((i : Int), (i : Int))

/-- A concrete allocation store: array 1 holds the single entry (1, 2);
array 0 is the shared empty array. -/
def s0A : Asm.Store :=
  ⟨2, fun i => if i = 1 then [(1, 2)] else []⟩

/-- The store after `insert(3, 4)` on array 1 of `s0A` allocates the new
contents. -/
def s1A : Asm.Store :=
  (Asm.alloc s0A [(1, 2), (3, 4)]).1

/-- A degenerate node heap (every address holds the sentinel cell). -/
def pStore0 : PtrIter.NodeStore :=
  ⟨fun _ => ⟨0, 0, false, 0, 0, 0⟩⟩

/-! ## Size-invariant lemmas (used by C6) -/

namespace LlrbNode

variable {K V : Type}

@[simp] theorem size_empty : (LlrbNode.empty : LlrbNode K V).size = 0 :=
  rfl

@[simp] theorem size_node (k : K) (v : V) (c : Bool) (s : Nat)
    (l r : LlrbNode K V) : (LlrbNode.node k v c s l r).size = s :=
  rfl

theorem sizeOk_rotateLeft {n : LlrbNode K V} (h : SizeOk n) :
    SizeOk (rotateLeft n) := by
  match n with
  | .empty => exact h
  | .node k v c s l .empty =>
    obtain ⟨hs, hl, -⟩ := h
    exact ⟨by simpa using hs, hl, trivial⟩
  | .node k v c s l (.node kr vr cr sr rl rr) =>
    obtain ⟨hs, hl, hsr, hrl, hrr⟩ := h
    refine ⟨?_, ⟨rfl, hl, hrl⟩, hrr⟩
    simp only [size_node] at hs
    simp only [mkNode, size_node]
    omega

theorem sizeOk_rotateRight {n : LlrbNode K V} (h : SizeOk n) :
    SizeOk (rotateRight n) := by
  match n with
  | .empty => exact h
  | .node k v c s .empty r =>
    obtain ⟨hs, -, hr⟩ := h
    exact ⟨by simpa using hs, trivial, hr⟩
  | .node k v c s (.node kl vl cl sl ll lr) r =>
    obtain ⟨hs, ⟨hsl, hll, hlr⟩, hr⟩ := h
    refine ⟨?_, hll, ⟨rfl, hlr, hr⟩⟩
    simp only [size_node] at hs
    simp only [mkNode, size_node]
    omega

theorem sizeOk_flipColor {n : LlrbNode K V} (h : SizeOk n) :
    SizeOk (flipColor n) := by
  match n with
  | .empty => exact h
  | .node k v c s l r =>
    obtain ⟨hs, hl, hr⟩ := h
    refine ⟨?_, ?_, ?_⟩
    · cases l <;> cases r <;> simpa [size] using hs
    · cases l with
      | empty => trivial
      | node kl vl cl sl ll lr => exact hl
    · cases r with
      | empty => trivial
      | node kr vr cr sr rl rr => exact hr

theorem sizeOk_cond (b : Bool) (f : LlrbNode K V → LlrbNode K V)
    (hf : ∀ m, SizeOk m → SizeOk (f m)) (n : LlrbNode K V) (hn : SizeOk n) :
    SizeOk (if b then f n else n) := by
  cases b <;> simp [hf n hn, hn]

theorem sizeOk_fixUp (k : K) (v : V) (c : Bool) (s : Nat)
    {l r : LlrbNode K V} (hl : SizeOk l) (hr : SizeOk r) :
    SizeOk (fixUp (.node k v c s l r)) := by
  have h1 : SizeOk (LlrbNode.node k v c (l.size + 1 + r.size) l r) :=
    ⟨rfl, hl, hr⟩
  unfold fixUp
  exact sizeOk_cond _ _ (fun _ h => sizeOk_flipColor h) _
    (sizeOk_cond _ _ (fun _ h => sizeOk_rotateRight h) _
      (sizeOk_cond _ _ (fun _ h => sizeOk_rotateLeft h) _ h1))

theorem sizeOk_insertImpl (k : K) (v : V) (cmp : V → V → Bool)
    {n : LlrbNode K V} (h : SizeOk n) : SizeOk (insertImpl k v cmp n) := by
  induction n with
  | empty => exact ⟨rfl, trivial, trivial⟩
  | node k0 v0 c0 s0 l0 r0 ihl ihr =>
    obtain ⟨hs, hl, hr⟩ := h
    unfold insertImpl
    split
    · exact sizeOk_fixUp _ _ _ _ (ihl hl) hr
    · split
      · exact sizeOk_fixUp _ _ _ _ hl (ihr hr)
      · exact ⟨hs, hl, hr⟩

theorem sizeOk_setBlack {n : LlrbNode K V} (h : SizeOk n) :
    SizeOk n.setBlack := by
  cases n with
  | empty => exact h
  | node k v c s l r => exact h

theorem sizeOk_insert (n : LlrbNode K V) (k : K) (v : V)
    (cmp : V → V → Bool) (h : SizeOk n) : SizeOk (n.insert k v cmp) := by
  have h1 := sizeOk_insertImpl k v cmp (n := n) h
  simp only [insert]
  split
  · exact sizeOk_setBlack h1
  · exact h1

end LlrbNode

/-! ## Claim theorems for the tree node and iterator -/

/-- **C1** (code bug).  The claim states that the node-level insert decides
its descent by comparing the inserted *key* against the node's *key*.  The
code (`llrb_node.h` lines 219 and 225) applies the comparator to the
*values*.  Evaluating the embedded insert: starting from the empty node,
inserting (key 1, value 10) and then (key 2, value 5) puts the entry with the
*greater* key 2 into the *left* child, because its value 5 is less than 10 —
whereas by the claim the key comparison 2 > 1 would have to place it in the
right child. -/
theorem c1_insert_descends_by_value_not_key :
    ((LlrbNode.empty : LlrbNode Int Int).insert 1 10 intLt).insert 2 5 intLt
      = LlrbNode.node 1 10 false 2
          (LlrbNode.node 2 5 true 1 .empty .empty) .empty := by
  rfl

/-- **C3** (code bug).  The claim states that rotating left makes the new
subtree root adopt R's key *and* value.  `RotateLeft` (`llrb_node.h` lines
259-268) executes `value_ = right_->value_` but never touches `key_`: for
X = (key 1, value 10, black) with red right child R = (key 2, value 20), the
rotation result keeps X's key 1 while adopting R's value 20.  (The left child
and right child do match the claim.) -/
theorem c3_rotate_left_keeps_receiver_key :
    LlrbNode.rotateLeft
        (LlrbNode.node (1 : Int) (10 : Int) false 2 .empty
          (.node 2 20 true 1 .empty .empty))
      = LlrbNode.node 1 20 false 2
          (LlrbNode.node 1 10 true 1 .empty .empty) .empty ∧
    (LlrbNode.rotateLeft
        (LlrbNode.node (1 : Int) (10 : Int) false 2 .empty
          (.node 2 20 true 1 .empty .empty))).key ≠ (2 : Int) := by
  constructor
  · rfl
  · decide

/-- **C4** (code bug).  The claim states that forward iteration over a
tree-backed map visits entries in strictly increasing key order because the
forward policy treats left as "backward".  In the code `ForwardPolicy` has
`forward = left` and `backward = right` (`llrb_node_iterator.h` lines
189-205), so `Begin` descends to the *rightmost* node and advancing walks
keys downward.  On the tree built by inserting (1, 1) then (2, 2) the forward
iteration yields [(1, 2), (1, 1)] — the keys [1, 1] are not strictly
increasing (the duplicate key 1 also reflects the rotate-left key bug of
C3). -/
theorem c4_forward_iteration_not_ascending :
    FwdIter.entries 3 (FwdIter.iterBegin tree12) = [(1, 2), (1, 1)] ∧
    ¬ List.Chain' (fun a b => a < b)
        ((FwdIter.entries 3 (FwdIter.iterBegin tree12)).map Prod.fst) := by
  refine ⟨rfl, ?_⟩
  have h : FwdIter.entries 3 (FwdIter.iterBegin tree12) = [(1, 2), (1, 1)] :=
    rfl
  rw [h]
  simp [List.chain'_cons]

/-- **C5** (code bug).  The claim states that erasing a contained key from a
tree-backed map decreases the size by exactly one.  `TreeSortedMap::erase`
(`tree_sorted_map.h` lines 127-130) is a stub that returns `*this` unchanged
(and `TreeSortedMap::insert`, lines 116-119, falls off the end without
returning a value): erasing key 1 from the one-entry map leaves the size at
1, and in general erase never changes the size. -/
theorem c5_tree_map_erase_is_noop :
    ((TreeSortedMap.mk ((LlrbNode.empty : LlrbNode Int Int).insert 1 1 intLt)).erase 1).size
        = 1 ∧
    ∀ (m : TreeSortedMap) (k : Int), (m.erase k).size = m.size := by
  exact ⟨rfl, fun m k => rfl⟩

/-- **C6** (confirmed).  For every comparator and every sequence of
node-level inserts starting from the empty node, every non-empty node of the
resulting tree stores a `size_` equal to 1 plus the sizes of its two
children (`SizeOk` states exactly this, recursively over all nodes). -/
theorem c6_subtree_size_invariant {K V : Type} (cmp : V → V → Bool)
    (ops : List (K × V)) :
    SizeOk (ops.foldl (fun t p => t.insert p.1 p.2 cmp) LlrbNode.empty) := by
  have main : ∀ (l : List (K × V)) (t : LlrbNode K V), SizeOk t →
      SizeOk (l.foldl (fun t p => t.insert p.1 p.2 cmp) t) := by
    intro l
    induction l with
    | nil => intro t ht; exact ht
    | cons p rest ih =>
      intro t ht
      exact ih _ (LlrbNode.sizeOk_insert t p.1 p.2 cmp ht)
  exact main ops LlrbNode.empty trivial

/-- **C9** (code bug).  The claim states that `LowerBound` compares the key
of the *currently visited* node to the target and stops immediately on an
exact match.  The code (`llrb_node_iterator.h` line 278) computes
`util::Compare(root->key(), key, comparator)` — the *root's* key — on every
iteration.  On `lbTree` (root key 5, left chain 9 → 7 → 6) with target 7,
every comparison is 5-versus-7 (`Ascending`), so the descent pushes 5, 9, 7
and then continues *past* the exact match 7 down to 6: the final stack is
[6, 7, 9, 5] and no stop happened at the matching node.  (The end flag is
`root->empty()`, here false, which does match the claim's last clause.) -/
theorem c9_lower_bound_uses_root_key :
    ((FwdIter.lowerBound intLt lbTree 7).stack.map LlrbNode.key
        = [6, 7, 9, 5]) ∧
    (FwdIter.lowerBound intLt lbTree 7).atEnd = false := by
  exact ⟨rfl, rfl⟩

/-- **C10** (confirmed).  Iterator equality (`operator==`) compares only the
pointer identity of the currently dereferenced node (`get() == b.get()`),
and `top()` of any at-end iterator is the single shared empty sentinel
(address 0): the end iterators of any two trees — over any two node heaps —
compare equal, while two iterators positioned at distinct node addresses
compare unequal even when the nodes hold equal keys. -/
theorem c10_iterator_equality_is_pointer_identity :
    (∀ (s1 : PtrIter.NodeStore) (r1 f1 : Nat) (s2 : PtrIter.NodeStore)
        (r2 f2 : Nat),
        PtrIter.iterEq (PtrIter.pEnd s1 r1 f1) (PtrIter.pEnd s2 r2 f2)
          = true) ∧
    (∀ it : PtrIter.PIter, it.atEnd = true → PtrIter.pGet it = 0) ∧
    (∀ (s : PtrIter.NodeStore) (it1 it2 : PtrIter.PIter),
        (s.mem (PtrIter.pGet it1)).key = (s.mem (PtrIter.pGet it2)).key →
        PtrIter.pGet it1 ≠ PtrIter.pGet it2 →
        PtrIter.iterEq it1 it2 = false) := by
  refine ⟨?_, ?_, ?_⟩
  · intro s1 r1 f1 s2 r2 f2
    simp [PtrIter.iterEq, PtrIter.pGet, PtrIter.pEnd]
  · intro it h
    simp [PtrIter.pGet, h]
  · intro s it1 it2 _hk hne
    simp only [PtrIter.iterEq, beq_eq_false_iff_ne, ne_eq]
    exact hne

/-- Witness for C10: concrete end iterators over two different roots of the
degenerate heap compare equal; a concrete at-end iterator dereferences
address 0; concrete iterators at the distinct addresses 1 and 2 (which hold
equal keys in `pStore0`) compare unequal. -/
theorem c10_witness :
    PtrIter.iterEq (PtrIter.pEnd pStore0 0 1) (PtrIter.pEnd pStore0 5 2)
        = true ∧
    PtrIter.pGet ⟨[], true⟩ = 0 ∧
    PtrIter.iterEq ⟨[1], false⟩ ⟨[2], false⟩ = false :=
  ⟨c10_iterator_equality_is_pointer_identity.1 pStore0 0 1 pStore0 5 2,
   c10_iterator_equality_is_pointer_identity.2.1 ⟨[], true⟩ rfl,
   c10_iterator_equality_is_pointer_identity.2.2 pStore0 ⟨[1], false⟩
     ⟨[2], false⟩ rfl (by decide)⟩

/-! ## Array-map lemmas (used by C2, C7, C8) -/

namespace Asm

theorem lowerBoundIdx_le (l : List Entry) (k : Int) :
    lowerBoundIdx l k ≤ l.length := by
  induction l with
  | nil => simp [lowerBoundIdx]
  | cons e rest ih =>
    simp only [lowerBoundIdx, List.length_cons]
    split
    · omega
    · omega

theorem lowerBound_entry (l : List Entry) (k v : Int) (hs : SortedE l)
    (hmem : (k, v) ∈ l) :
    lowerBoundIdx l k < l.length ∧
      l.getD (lowerBoundIdx l k) (0, 0) = (k, v) := by
  induction l with
  | nil => cases hmem
  | cons e rest ih =>
    rw [SortedE, List.pairwise_cons] at hs
    obtain ⟨h1, h2⟩ := hs
    rcases List.mem_cons.mp hmem with he | hm
    · subst he
      simp [lowerBoundIdx]
    · have hlt : e.1 < k := h1 (k, v) hm
      obtain ⟨ihl, ihg⟩ := ih h2 hm
      simp only [lowerBoundIdx, if_pos hlt, List.length_cons,
        List.getD_cons_succ]
      exact ⟨by omega, ihg⟩

theorem mem_of_replacing (l : List Entry) (k : Int)
    (h : replacing l k = true) : k ∈ l.map Prod.fst := by
  induction l with
  | nil => simp [replacing, lowerBoundIdx] at h
  | cons e rest ih =>
    by_cases hlt : e.1 < k
    · have hstep : replacing (e :: rest) k = replacing rest k := by
        simp [replacing, lowerBoundIdx, if_pos hlt, List.getD_cons_succ,
          Nat.succ_lt_succ_iff]
      rw [hstep] at h
      simp [ih h]
    · have hpos : lowerBoundIdx (e :: rest) k = 0 := by
        simp [lowerBoundIdx, hlt]
      simp only [replacing] at h
      rw [hpos] at h
      simp only [Bool.and_eq_true, decide_eq_true_eq, Bool.not_eq_true',
        decide_eq_false_iff_not, List.getD_cons_zero] at h
      have he : e.1 = k := by omega
      simp [← he]

theorem insertNoOp_of_mem (l : List Entry) (k v : Int) (hs : SortedE l)
    (hmem : (k, v) ∈ l) : insertNoOp l k v = true := by
  obtain ⟨hlt, hget⟩ := lowerBound_entry l k v hs hmem
  simp only [insertNoOp, replacing]
  rw [hget]
  simp [hlt]

theorem replacing_lt (l : List Entry) (k : Int) (h : replacing l k = true) :
    lowerBoundIdx l k < l.length := by
  simp only [replacing, Bool.and_eq_true, decide_eq_true_eq] at h
  exact h.1

end Asm

/-! ## Claim theorems for the array-backed map -/

/-- **C2** (confirmed).  Producing `M' = M.insert(k, v)` or `M' = M.erase(k)`
leaves the old map `M`'s observable contents unchanged: over the allocation
store, both operations either return `*this` or wrap a freshly allocated
array, so the array `m` that `M` references holds exactly the same entry
sequence afterwards (hence the same iteration order), and every key lookup
(`find`) on `M` is unchanged. -/
theorem c2_insert_erase_preserve_old_map (s : Asm.Store) (m : Nat)
    (k v q : Int) (hm : m < s.next) :
    (∀ s' m', Asm.insertS s m k v = some (s', m') →
        s'.mem m = s.mem m ∧
          Asm.find (s'.mem m) q = Asm.find (s.mem m) q) ∧
    (∀ s' m', Asm.eraseS s m k = some (s', m') →
        s'.mem m = s.mem m ∧
          Asm.find (s'.mem m) q = Asm.find (s.mem m) q) := by
  have halloc : ∀ L : List Asm.Entry, (Asm.alloc s L).1.mem m = s.mem m := by
    intro L
    show (if m = s.next then L else s.mem m) = s.mem m
    rw [if_neg (Nat.ne_of_lt hm)]
  constructor
  · intro s' m' h
    unfold Asm.insertS at h
    split at h
    · obtain ⟨rfl, rfl⟩ : s = s' ∧ m = m' := by
        simpa [Prod.ext_iff] using h
      exact ⟨rfl, rfl⟩
    · rcases hmap : Asm.insert (s.mem m) k v with _ | L
      · rw [hmap] at h
        cases h
      · rw [hmap] at h
        simp only [Option.map_some', Option.some.injEq, Prod.ext_iff] at h
        obtain ⟨h1, -⟩ := h
        rw [← h1, halloc L]
        exact ⟨rfl, rfl⟩
  · intro s' m' h
    unfold Asm.eraseS at h
    split at h
    · obtain ⟨rfl, rfl⟩ : s = s' ∧ m = m' := by
        simpa [Prod.ext_iff] using h
      exact ⟨rfl, rfl⟩
    · split at h
      · obtain ⟨rfl, rfl⟩ : s = s' ∧ 0 = m' := by
          simpa [Prod.ext_iff] using h
        exact ⟨rfl, rfl⟩
      · rcases hmap : Asm.erase (s.mem m) k with _ | L
        · rw [hmap] at h
          cases h
        · rw [hmap] at h
          simp only [Option.map_some', Option.some.injEq, Prod.ext_iff] at h
          obtain ⟨h1, -⟩ := h
          rw [← h1, halloc L]
          exact ⟨rfl, rfl⟩

/-- Witness for C2: on the concrete store `s0A` (array 1 = [(1, 2)]),
inserting (3, 4) allocates array 2 and leaves array 1's contents and lookups
unchanged; erasing key 1 returns the shared empty array and likewise leaves
array 1 unchanged. -/
theorem c2_witness :
    (s1A.mem 1 = s0A.mem 1 ∧
      Asm.find (s1A.mem 1) 1 = Asm.find (s0A.mem 1) 1) ∧
    (s0A.mem 1 = s0A.mem 1 ∧
      Asm.find (s0A.mem 1) 1 = Asm.find (s0A.mem 1) 1) :=
  ⟨(c2_insert_erase_preserve_old_map s0A 1 3 4 1 (by decide)).1 s1A 2 rfl,
   (c2_insert_erase_preserve_old_map s0A 1 1 9 1 (by decide)).2 s0A 0 rfl⟩

/-- **C7** (confirmed).  `insert` on an array map with fewer than
`kFixedSize` = 25 entries always succeeds (so filling up to exactly the fixed
capacity succeeds); replacing an existing key's value in a full map also
succeeds; and any insert whose resulting size would exceed the fixed
capacity (full map, absent key) hits the `assert(new_size <= fixed_size)` in
`FixedArray::append`, embedded as `none` — it does not truncate or wrap. -/
theorem c7_insert_capacity_boundary :
    (∀ (l : List Asm.Entry) (k v : Int), l.length < Asm.kFixedSize →
        (Asm.insert l k v).isSome = true) ∧
    (∀ (l : List Asm.Entry) (k v : Int), Asm.SortedE l →
        l.length = Asm.kFixedSize → k ∈ l.map Prod.fst →
        (Asm.insert l k v).isSome = true) ∧
    (∀ (l : List Asm.Entry) (k v : Int), l.length = Asm.kFixedSize →
        k ∉ l.map Prod.fst → Asm.insert l k v = none) := by
  refine ⟨?_, ?_, ?_⟩
  · intro l k v hlen
    simp only [Asm.kFixedSize] at hlen
    simp only [Asm.insert]
    by_cases hno : Asm.insertNoOp l k v = true
    · simp [hno]
    · rw [if_neg hno]
      have hp := Asm.lowerBoundIdx_le l k
      have h1 : Asm.fxAppend [] (l.take (Asm.lowerBoundIdx l k))
          = some (l.take (Asm.lowerBoundIdx l k)) := by
        simp only [Asm.fxAppend, Asm.kFixedSize, List.length_nil,
          List.length_take]
        rw [if_pos (by omega), List.nil_append]
      have h2 : Asm.fxAppend (l.take (Asm.lowerBoundIdx l k)) [(k, v)]
          = some (l.take (Asm.lowerBoundIdx l k) ++ [(k, v)]) := by
        simp only [Asm.fxAppend, Asm.kFixedSize, List.length_take,
          List.length_singleton]
        rw [if_pos (by omega)]
      rw [h1, Option.some_bind, h2, Option.some_bind]
      by_cases hrep : Asm.replacing l k = true
      · have hplt := Asm.replacing_lt l k hrep
        rw [if_pos hrep]
        have h3 : Asm.fxAppend (l.take (Asm.lowerBoundIdx l k) ++ [(k, v)])
            (l.drop (Asm.lowerBoundIdx l k + 1))
            = some ((l.take (Asm.lowerBoundIdx l k) ++ [(k, v)])
                ++ l.drop (Asm.lowerBoundIdx l k + 1)) := by
          simp only [Asm.fxAppend, Asm.kFixedSize, List.length_append,
            List.length_take, List.length_singleton, List.length_drop]
          rw [if_pos (by omega)]
        rw [h3]
        rfl
      · rw [if_neg hrep]
        have h3 : Asm.fxAppend (l.take (Asm.lowerBoundIdx l k) ++ [(k, v)])
            (l.drop (Asm.lowerBoundIdx l k))
            = some ((l.take (Asm.lowerBoundIdx l k) ++ [(k, v)])
                ++ l.drop (Asm.lowerBoundIdx l k)) := by
          simp only [Asm.fxAppend, Asm.kFixedSize, List.length_append,
            List.length_take, List.length_singleton, List.length_drop]
          rw [if_pos (by omega)]
        rw [h3]
        rfl
  · intro l k v hs hlen hkm
    simp only [Asm.kFixedSize] at hlen
    obtain ⟨v', hv'⟩ : ∃ v', (k, v') ∈ l := by
      obtain ⟨e, he, hek⟩ := List.mem_map.mp hkm
      refine ⟨e.2, ?_⟩
      have : (k, e.2) = e := by
        rw [← hek]
      rw [this]
      exact he
    obtain ⟨hlt, hget⟩ := Asm.lowerBound_entry l k v' hs hv'
    simp only [Asm.insert]
    by_cases hno : Asm.insertNoOp l k v = true
    · simp [hno]
    · rw [if_neg hno]
      have hrep : Asm.replacing l k = true := by
        simp only [Asm.replacing]
        rw [hget]
        simp [hlt]
      have h1 : Asm.fxAppend [] (l.take (Asm.lowerBoundIdx l k))
          = some (l.take (Asm.lowerBoundIdx l k)) := by
        simp only [Asm.fxAppend, Asm.kFixedSize, List.length_nil,
          List.length_take]
        rw [if_pos (by omega), List.nil_append]
      have h2 : Asm.fxAppend (l.take (Asm.lowerBoundIdx l k)) [(k, v)]
          = some (l.take (Asm.lowerBoundIdx l k) ++ [(k, v)]) := by
        simp only [Asm.fxAppend, Asm.kFixedSize, List.length_take,
          List.length_singleton]
        rw [if_pos (by omega)]
      have h3 : Asm.fxAppend (l.take (Asm.lowerBoundIdx l k) ++ [(k, v)])
          (l.drop (Asm.lowerBoundIdx l k + 1))
          = some ((l.take (Asm.lowerBoundIdx l k) ++ [(k, v)])
              ++ l.drop (Asm.lowerBoundIdx l k + 1)) := by
        simp only [Asm.fxAppend, Asm.kFixedSize, List.length_append,
          List.length_take, List.length_singleton, List.length_drop]
        rw [if_pos (by omega)]
      rw [h1, Option.some_bind, h2, Option.some_bind, if_pos hrep, h3]
      rfl
  · intro l k v hlen hkm
    simp only [Asm.kFixedSize] at hlen
    have hrep : Asm.replacing l k = false := by
      by_contra hc
      have hrepT : Asm.replacing l k = true := by
        revert hc
        cases Asm.replacing l k <;> simp
      exact hkm (Asm.mem_of_replacing l k hrepT)
    have hno : Asm.insertNoOp l k v = false := by
      simp only [Asm.insertNoOp]
      rw [hrep]
      rfl
    have hp := Asm.lowerBoundIdx_le l k
    simp only [Asm.insert]
    rw [if_neg (by simp [hno])]
    have h1 : Asm.fxAppend [] (l.take (Asm.lowerBoundIdx l k))
        = some (l.take (Asm.lowerBoundIdx l k)) := by
      simp only [Asm.fxAppend, Asm.kFixedSize, List.length_nil,
        List.length_take]
      rw [if_pos (by omega), List.nil_append]
    rw [h1, Option.some_bind]
    by_cases hpe : Asm.lowerBoundIdx l k = l.length
    · have h2 : Asm.fxAppend (l.take (Asm.lowerBoundIdx l k)) [(k, v)]
          = none := by
        simp only [Asm.fxAppend, Asm.kFixedSize, List.length_take,
          List.length_singleton]
        rw [if_neg (by omega)]
      rw [h2]
      rfl
    · have hplt : Asm.lowerBoundIdx l k < l.length := by omega
      have h2 : Asm.fxAppend (l.take (Asm.lowerBoundIdx l k)) [(k, v)]
          = some (l.take (Asm.lowerBoundIdx l k) ++ [(k, v)]) := by
        simp only [Asm.fxAppend, Asm.kFixedSize, List.length_take,
          List.length_singleton]
        rw [if_pos (by omega)]
      rw [h2, Option.some_bind, if_neg (by simp [hrep])]
      have h3 : Asm.fxAppend (l.take (Asm.lowerBoundIdx l k) ++ [(k, v)])
          (l.drop (Asm.lowerBoundIdx l k)) = none := by
        simp only [Asm.fxAppend, Asm.kFixedSize, List.length_append,
          List.length_take, List.length_singleton, List.length_drop]
        rw [if_neg (by omega)]
      rw [h3]

/-- Witness for C7: inserting into the empty array succeeds; replacing the
value at key 0 in the full 25-entry array `l25` succeeds; inserting the
absent key 25 into `l25` fails the capacity assertion. -/
theorem c7_witness :
    (Asm.insert [] 0 0).isSome = true ∧
    (Asm.insert l25 0 99).isSome = true ∧
    Asm.insert l25 25 0 = none :=
  ⟨c7_insert_capacity_boundary.1 [] 0 0 (by decide),
   c7_insert_capacity_boundary.2.1 l25 0 99 (by decide) (by decide)
     (by decide),
   c7_insert_capacity_boundary.2.2 l25 25 0 (by decide) (by decide)⟩

/-- **C8** (confirmed).  Inserting a pair (k, v) that is already present
with an equal value returns `*this`: over the allocation store the result is
the *same* store (no allocation) and the *same* array id, so a lookup of k
in the result references the identical underlying entry. -/
theorem c8_identical_reinsert_returns_self (s : Asm.Store) (m : Nat)
    (k v : Int) (hs : Asm.SortedE (s.mem m)) (hmem : (k, v) ∈ s.mem m) :
    Asm.insertS s m k v = some (s, m) := by
  unfold Asm.insertS
  rw [if_pos (Asm.insertNoOp_of_mem (s.mem m) k v hs hmem)]

/-- Witness for C8: re-inserting the pair (1, 2), already present in array 1
of the concrete store `s0A`, returns the same store and the same array id. -/
theorem c8_witness : Asm.insertS s0A 1 1 2 = some (s0A, 1) :=
  c8_identical_reinsert_returns_self s0A 1 1 2 (by decide) (by decide)

end Firestore
